import Mathlib

/-!
Verification development for the XTea library (xtea.hpp).

The source provides two selectable block-cipher variants (XTEA, the default,
and TEA) over 64-bit blocks and 128-bit keys, plus byte-buffer wrappers
`Encrypt` and `Decrypt` that apply the block transforms to consecutive
8-byte windows.  32-bit machine words are modelled as natural numbers
reduced modulo 2^32; byte buffers are modelled as functions from byte index
to byte value.
-/

namespace XTea

/-- Modulus of 32-bit machine arithmetic, 2^32. -/
def M : Nat := 4294967296

/-- DELTA, the additive round constant of the source (0x9E3779B9). -/
def DELTA : Nat := 2654435769

/-- Wrapping 32-bit addition. -/
def wadd (a b : Nat) : Nat := (a + b) % M

/-- Wrapping 32-bit subtraction. -/
def wsub (a b : Nat) : Nat := (a + (M - b % M)) % M

/-- The C expression x << 4 on a uint32_t. -/
def wshl4 (a : Nat) : Nat := a * 16 % M

/-- The C expression x >> 5 on a uint32_t (operand below 2^32). -/
def wshr5 (a : Nat) : Nat := a / 32

/-- A 128-bit key: four 32-bit words, as in the source. -/
structure Key where
  k0 : Nat
  k1 : Nat
  k2 : Nat
  k3 : Nat
deriving DecidableEq

/-- Array indexing key[i] for an index already reduced into 0..3. -/
def keyAt (k : Key) : Nat → Nat
  | 0 => k.k0
  | 1 => k.k1
  | 2 => k.k2
  | _ => k.k3

/-- A 64-bit block: the pair (v[0], v[1]) of 32-bit words. -/
abbrev Block := Nat × Nat

/-- One iteration of the loop body of the XTEA-variant EncipherBlock,
    exactly as in the source (note: both assignments write v[0]):
      v[0] += ((v[1] << 4) ^ (v[1] >> 5) + v[1]) ^ (sum + key[sum & 3]);
      sum  += DELTA;
      v[0] += ((v[0] << 4) ^ (v[0] >> 5) + v[0]) ^ (sum + key[(sum >> 11) & 3]);
    C precedence makes + bind tighter than ^.  Returns the block and sum. -/
def xteaEncRound (k : Key) (v : Block) (sum : Nat) : Block × Nat :=
  let v0a := wadd v.1 (Nat.xor (Nat.xor (wshl4 v.2) (wadd (wshr5 v.2) v.2))
    (wadd sum (keyAt k (sum % 4))))
  let sum1 := wadd sum DELTA
  let v0b := wadd v0a (Nat.xor (Nat.xor (wshl4 v0a) (wadd (wshr5 v0a) v0a))
    (wadd sum1 (keyAt k (sum1 / 2048 % 4))))
  ((v0b, v.2), sum1)

/-- One iteration of the loop body of the XTEA-variant DecipherBlock:
      v[1] -= ((v[0] << 4) ^ (v[0] >> 5) + v[0]) ^ (sum + key[(sum >> 11) & 3]);
      sum  -= DELTA;
      v[0] -= ((v[1] << 4) ^ (v[1] >> 5) + v[1]) ^ (sum + key[sum & 3]); -/
def xteaDecRound (k : Key) (v : Block) (sum : Nat) : Block × Nat :=
  let v1a := wsub v.2 (Nat.xor (Nat.xor (wshl4 v.1) (wadd (wshr5 v.1) v.1))
    (wadd sum (keyAt k (sum / 2048 % 4))))
  let sum1 := wsub sum DELTA
  let v0a := wsub v.1 (Nat.xor (Nat.xor (wshl4 v1a) (wadd (wshr5 v1a) v1a))
    (wadd sum1 (keyAt k (sum1 % 4))))
  ((v0a, v1a), sum1)

/-- One iteration of the loop body of the TEA-variant EncipherBlock:
      sum  += DELTA;
      v[0] += ((v[1] << 4) + key[0]) ^ (v[1] + sum) ^ ((v[1] >> 5) + key[1]);
      v[1] += ((v[0] << 4) + key[2]) ^ (v[0] + sum) ^ ((v[0] >> 5) + key[3]);
    The second assignment reads the freshly updated v[0]. -/
def teaEncRound (k : Key) (v : Block) (sum : Nat) : Block × Nat :=
  let sum1 := wadd sum DELTA
  let v0a := wadd v.1 (Nat.xor (Nat.xor (wadd (wshl4 v.2) k.k0) (wadd v.2 sum1))
    (wadd (wshr5 v.2) k.k1))
  let v1a := wadd v.2 (Nat.xor (Nat.xor (wadd (wshl4 v0a) k.k2) (wadd v0a sum1))
    (wadd (wshr5 v0a) k.k3))
  ((v0a, v1a), sum1)

/-- One iteration of the loop body of the TEA-variant DecipherBlock:
      v[1] -= ((v[0] << 4) + key[2]) ^ (v[0] + sum) ^ ((v[0] >> 5) + key[3]);
      v[0] -= ((v[1] << 4) + key[0]) ^ (v[1] + sum) ^ ((v[1] >> 5) + key[1]);
      sum  -= DELTA; -/
def teaDecRound (k : Key) (v : Block) (sum : Nat) : Block × Nat :=
  let v1a := wsub v.2 (Nat.xor (Nat.xor (wadd (wshl4 v.1) k.k2) (wadd v.1 sum))
    (wadd (wshr5 v.1) k.k3))
  let v0a := wsub v.1 (Nat.xor (Nat.xor (wadd (wshl4 v1a) k.k0) (wadd v1a sum))
    (wadd (wshr5 v1a) k.k1))
  ((v0a, v1a), wsub sum DELTA)

/-- The common shape of the four round loops: iterate a round body `n` times,
    threading the block and the running sum. -/
def runRounds (f : Block → Nat → Block × Nat) : Nat → Block → Nat → Block
  | 0, v, _ => v
  | n + 1, v, sum => runRounds f n (f v sum).1 (f v sum).2

/-- EncipherBlock of the default (XTEA) variant: sum starts at 0. -/
def EncipherBlock (k : Key) (n : Nat) (v : Block) : Block :=
  runRounds (xteaEncRound k) n v 0

/-- DecipherBlock of the default (XTEA) variant: sum starts at DELTA * n_rounds
    (a uint32_t product, hence reduced modulo 2^32). -/
def DecipherBlock (k : Key) (n : Nat) (v : Block) : Block :=
  runRounds (xteaDecRound k) n v (DELTA * n % M)

/-- EncipherBlock of the TEA variant (USE_TEA_INSTEAD_OF_XTEA). -/
def EncipherBlockTEA (k : Key) (n : Nat) (v : Block) : Block :=
  runRounds (teaEncRound k) n v 0

/-- DecipherBlock of the TEA variant: sum starts at n_rounds * DELTA mod 2^32. -/
def DecipherBlockTEA (k : Key) (n : Nat) (v : Block) : Block :=
  runRounds (teaDecRound k) n v (DELTA * n % M)

/-- The all-zero key, used as a concrete test input. -/
def zeroKey : Key := ⟨0, 0, 0, 0⟩

/-- Modelled from the spec: one XTEA encipher round as §4.1 describes it —
    "Each round updates block[0] using block[1] ... advances sum, then updates
    block[1] symmetrically using block[0] and a key word selected by
    (sum >> 11) & 3".  Identical to `xteaEncRound` except that the second
    assignment targets block[1], reading the already-updated block[0]. -/
def xteaEncRoundSpec (k : Key) (v : Block) (sum : Nat) : Block × Nat :=
  let v0a := wadd v.1 (Nat.xor (Nat.xor (wshl4 v.2) (wadd (wshr5 v.2) v.2))
    (wadd sum (keyAt k (sum % 4))))
  let sum1 := wadd sum DELTA
  let v1a := wadd v.2 (Nat.xor (Nat.xor (wshl4 v0a) (wadd (wshr5 v0a) v0a))
    (wadd sum1 (keyAt k (sum1 / 2048 % 4))))
  ((v0a, v1a), sum1)

/-- Modelled from the spec: the XTEA EncipherBlock as intended, built from
    `xteaEncRoundSpec` with sum starting at 0. -/
def EncipherBlockSpec (k : Key) (n : Nat) (v : Block) : Block :=
  runRounds (xteaEncRoundSpec k) n v 0

/-- Mixing formulas of one TEA encipher round at a given already-accumulated
    sum, written as the spec describes them: block[0] is updated from
    block[1] mixed with key[0], key[1] and the sum; block[1] is updated from
    the just-updated block[0] mixed with key[2], key[3] and the sum. -/
def teaMix (k : Key) (sum : Nat) (v : Block) : Block :=
  let b0 := wadd v.1 (Nat.xor (Nat.xor (wadd (wshl4 v.2) k.k0) (wadd v.2 sum))
    (wadd (wshr5 v.2) k.k1))
  let b1 := wadd v.2 (Nat.xor (Nat.xor (wadd (wshl4 b0) k.k2) (wadd b0 sum))
    (wadd (wshr5 b0) k.k3))
  (b0, b1)

/-- Reverse-order mixing of one TEA decipher round at a given sum: block[1]
    first, then block[0] from the restored block[1]. -/
def teaDecMix (k : Key) (sum : Nat) (v : Block) : Block :=
  let b1 := wsub v.2 (Nat.xor (Nat.xor (wadd (wshl4 v.1) k.k2) (wadd v.1 sum))
    (wadd (wshr5 v.1) k.k3))
  let b0 := wsub v.1 (Nat.xor (Nat.xor (wadd (wshl4 b1) k.k0) (wadd b1 sum))
    (wadd (wshr5 b1) k.k1))
  (b0, b1)

/-- Modelled from the spec: the TEA encipher schedule — sum accumulates DELTA
    exactly once per round, so round i (counting from 0) mixes with
    sum = DELTA * (i+1) mod 2^32. -/
def teaEncSpec (k : Key) (n : Nat) (v : Block) : Block :=
  (List.range n).foldl (fun w i => teaMix k (DELTA * (i + 1) % M) w) v

/-- Modelled from the spec: the TEA decipher schedule — sum starts at
    rounds * DELTA, updates are applied in reverse order, and sum is
    decremented after each round, so round i mixes with
    sum = DELTA * (n - i) mod 2^32. -/
def teaDecSpec (k : Key) (n : Nat) (v : Block) : Block :=
  (List.range n).foldl (fun w i => teaDecMix k (DELTA * (n - i) % M) w) v

/-- The TEA encipher round exactly as claim C5 words it, with block[1]
    updated from the pre-round (not yet updated) value of block[0]. -/
def teaEncRoundStale (k : Key) (v : Block) (sum : Nat) : Block × Nat :=
  let sum1 := wadd sum DELTA
  let v0a := wadd v.1 (Nat.xor (Nat.xor (wadd (wshl4 v.2) k.k0) (wadd v.2 sum1))
    (wadd (wshr5 v.2) k.k1))
  let v1a := wadd v.2 (Nat.xor (Nat.xor (wadd (wshl4 v.1) k.k2) (wadd v.1 sum1))
    (wadd (wshr5 v.1) k.k3))
  ((v0a, v1a), sum1)

/-- TEA encipher built from the stale round of claim C5's wording. -/
def EncipherBlockTEAStale (k : Key) (n : Nat) (v : Block) : Block :=
  runRounds (teaEncRoundStale k) n v 0

/-- Little-endian read of a 32-bit word from four consecutive buffer bytes:
    the effect of the source's cast of data + off to uint32_t* on a
    little-endian host (the source's byte order is host-dependent; one fixed
    order is chosen here, and no claim below depends on the choice). -/
def readWord (d : Nat → Nat) (q : Nat) : Nat :=
  d q + 256 * d (q + 1) + 65536 * d (q + 2) + 16777216 * d (q + 3)

/-- Little-endian write of a 32-bit word into four consecutive buffer bytes. -/
def writeWord (d : Nat → Nat) (q : Nat) (w : Nat) : Nat → Nat :=
  fun p => if q ≤ p ∧ p < q + 4 then w / 256 ^ (p - q) % 256 else d p

/-- Apply a block transform in place to the 8-byte window at offset off:
    the effect of one EncipherBlock/DecipherBlock call on the buffer. -/
def applyBlockAt (f : Block → Block) (d : Nat → Nat) (off : Nat) : Nat → Nat :=
  writeWord
    (writeWord d off (f (readWord d off, readWord d (off + 4))).1)
    (off + 4) (f (readWord d off, readWord d (off + 4))).2

/-- The block-iteration loop of Encrypt/Decrypt: process the 8-byte windows
    at offsets 0, 8, ..., 8*(n-1), in loop order. -/
def cipherLoop (f : Block → Block) : Nat → (Nat → Nat) → (Nat → Nat)
  | 0, d => d
  | n + 1, d => applyBlockAt f (cipherLoop f n d) (8 * n)

/-- Block count as computed in the source:
    n_blocks = size / 8, incremented once when size % 8 != 0. -/
def nBlocks (size : Nat) : Nat := size / 8 + (if size % 8 = 0 then 0 else 1)

/-- Encrypt(data, size, key, n_rounds): encipher each 8-byte window. -/
def Encrypt (d : Nat → Nat) (size : Nat) (k : Key) (r : Nat) : Nat → Nat :=
  cipherLoop (fun v => EncipherBlock k r v) (nBlocks size) d

/-- Decrypt(data, size, key, n_rounds): decipher each 8-byte window. -/
def Decrypt (d : Nat → Nat) (size : Nat) (k : Key) (r : Nat) : Nat → Nat :=
  cipherLoop (fun v => DecipherBlock k r v) (nBlocks size) d

/-- Read the four key words from a 16-byte region of memory: the effect of
    Encrypt's cast of the key byte pointer to uint32_t*. -/
def keyFromMem (mem : Nat → Nat) (kOff : Nat) : Key :=
  ⟨readWord mem kOff, readWord mem (kOff + 4),
   readWord mem (kOff + 8), readWord mem (kOff + 12)⟩

/-- The Encrypt/Decrypt loop with data and key living in one byte memory
    (data region at offset 0, key region at kOff): each block call re-reads
    the key words through the key pointer, as the source does. -/
def cipherLoopMem (enc : Key → Block → Block) (kOff : Nat) :
    Nat → (Nat → Nat) → (Nat → Nat)
  | 0, mem => mem
  | n + 1, mem =>
    applyBlockAt (enc (keyFromMem (cipherLoopMem enc kOff n mem) kOff))
      (cipherLoopMem enc kOff n mem) (8 * n)

/-- Encrypt over a memory holding both the data buffer (at offset 0) and the
    key bytes (at offset kOff). -/
def EncryptMem (mem : Nat → Nat) (size kOff r : Nat) : Nat → Nat :=
  cipherLoopMem (fun k v => EncipherBlock k r v) kOff (nBlocks size) mem

/-- Decrypt over a memory holding both the data buffer and the key bytes. -/
def DecryptMem (mem : Nat → Nat) (size kOff r : Nat) : Nat → Nat :=
  cipherLoopMem (fun k v => DecipherBlock k r v) kOff (nBlocks size) mem

section WordLemmas

theorem runRounds_zero (f : Block → Nat → Block × Nat) (v : Block) (s : Nat) :
    runRounds f 0 v s = v := rfl

theorem runRounds_succ (f : Block → Nat → Block × Nat) (n : Nat) (v : Block) (s : Nat) :
    runRounds f (n + 1) v s = runRounds f n (f v s).1 (f v s).2 := rfl

theorem M_eq_pow : M = 2 ^ 32 := by norm_num [M]

theorem wadd_lt (a b : Nat) : wadd a b < M := by
  unfold wadd M; omega

theorem wsub_lt (a b : Nat) : wsub a b < M := by
  unfold wsub M; omega

theorem wsub_wadd (a b : Nat) : wsub (wadd a b) b = a % M := by
  unfold wsub wadd M; omega

theorem wadd_mod_left (a b : Nat) : wadd (a % M) b = wadd a b := by
  unfold wadd M; omega

theorem wadd_zero_right (a : Nat) : wadd a 0 = a % M := by
  unfold wadd M; omega

theorem mod_M_mod_four (a : Nat) : a % M % 4 = a % 4 := by
  unfold M; omega

theorem wadd_wadd (a b c : Nat) : wadd (wadd a b) c = wadd a (b + c) := by
  unfold wadd M; omega

theorem wsub_wadd_delta_succ (a n : Nat) :
    wsub (wadd a (DELTA * (n + 1))) DELTA = wadd a (DELTA * n) := by
  unfold wsub wadd DELTA M; omega

theorem wadd_delta_step (a n : Nat) :
    wadd (wadd a (DELTA * n)) DELTA = wadd a (DELTA * (n + 1)) := by
  unfold wadd DELTA M; omega

end WordLemmas

/-- Projection fact about the source's XTEA encipher round: its block result
    keeps the second word. -/
theorem xteaEncRound_fst_snd (k : Key) (v : Block) (s : Nat) :
    (xteaEncRound k v s).1.2 = v.2 := rfl

/-- Every round of the source's XTEA EncipherBlock leaves the second block
    word untouched, whatever the starting sum. -/
theorem runRounds_xteaEnc_snd (k : Key) (n : Nat) : ∀ (v : Block) (s : Nat),
    (runRounds (xteaEncRound k) n v s).2 = v.2 := by
  induction n with
  | zero => intro v s; rfl
  | succ m ih =>
    intro v s
    rw [runRounds_succ, ih, xteaEncRound_fst_snd]

/-- C1: the claimed round-trip Decipher(Encipher(B,K,r),K,r) = B fails on the
    code in the default XTEA variant: with the all-zero key, one round, and
    the all-zero block, deciphering the enciphered block does not return the
    original (EncipherBlock never writes block[1], DecipherBlock does). -/
theorem xtea_roundtrip_fails_on_code :
    DecipherBlock zeroKey 1 (EncipherBlock zeroKey 1 (0, 0)) ≠ (0, 0) := by
  decide

/-- C2: evaluated at the all-zero key and block with one round, the source's
    XTEA EncipherBlock leaves block[1] at 0 and accumulates both updates in
    block[0], while the round the claim describes (second update targeting
    block[1]) produces (0, DELTA): the code's second assignment writes
    block[0], not block[1]. -/
theorem xtea_second_update_targets_v0 :
    EncipherBlock zeroKey 1 (0, 0) = (DELTA, 0) ∧
    EncipherBlockSpec zeroKey 1 (0, 0) = (0, DELTA) := by
  constructor <;> decide

/-- C3: the XTEA-variant EncipherBlock never modifies the second word of the
    block: both assignments in every round target block[0] only. -/
theorem encipherBlock_preserves_second_word (k : Key) (n : Nat) (v : Block) :
    (EncipherBlock k n v).2 = v.2 :=
  runRounds_xteaEnc_snd k n v 0

section BufferLemmas

theorem cipherLoop_zero (f : Block → Block) (d : Nat → Nat) :
    cipherLoop f 0 d = d := rfl

theorem cipherLoop_succ (f : Block → Block) (n : Nat) (d : Nat → Nat) :
    cipherLoop f (n + 1) d = applyBlockAt f (cipherLoop f n d) (8 * n) := rfl

/-- writeWord only changes the four bytes starting at its offset. -/
theorem writeWord_frame (d : Nat → Nat) (q w p : Nat)
    (h : p < q ∨ q + 4 ≤ p) : writeWord d q w p = d p := by
  unfold writeWord
  rw [if_neg]
  omega

/-- A block application only changes the eight bytes of its window. -/
theorem applyBlockAt_frame (f : Block → Block) (d : Nat → Nat) (off p : Nat)
    (h : p < off ∨ off + 8 ≤ p) : applyBlockAt f d off p = d p := by
  unfold applyBlockAt
  rw [writeWord_frame _ _ _ _ (by omega), writeWord_frame _ _ _ _ (by omega)]

/-- The block loop leaves every byte at or beyond offset 8*n unchanged. -/
theorem cipherLoop_frame (f : Block → Block) (n : Nat) :
    ∀ (d : Nat → Nat) (p : Nat), 8 * n ≤ p → cipherLoop f n d p = d p := by
  induction n with
  | zero => intro d p _; rfl
  | succ m ih =>
    intro d p hp
    rw [cipherLoop_succ, applyBlockAt_frame _ _ _ _ (by omega), ih d p (by omega)]

end BufferLemmas

/-- C8: a zero-length buffer is a valid input: with size = 0 the source
    computes zero blocks, so Encrypt and Decrypt leave every byte unchanged. -/
theorem zero_length_buffer_unchanged (d : Nat → Nat) (k : Key) (r p : Nat) :
    nBlocks 0 = 0 ∧ Encrypt d 0 k r p = d p ∧ Decrypt d 0 k r p = d p :=
  ⟨rfl, rfl, rfl⟩

section RoundTripMachinery

theorem wadd_zero_left (a : Nat) : wadd 0 a = a % M := by
  unfold wadd M; omega

theorem wsub_delta_mul_succ (m : Nat) :
    wsub (DELTA * (m + 1) % M) DELTA = DELTA * m % M := by
  unfold wsub DELTA M; omega

theorem teaEncRound_fst (k : Key) (v : Block) (s : Nat) :
    (teaEncRound k v s).1 = teaMix k (wadd s DELTA) v := rfl

theorem teaDecRound_fst (k : Key) (v : Block) (s : Nat) :
    (teaDecRound k v s).1 = teaDecMix k s v := rfl

theorem teaDecRound_snd (k : Key) (v : Block) (s : Nat) :
    (teaDecRound k v s).2 = wsub s DELTA := rfl

/-- One TEA decipher round, at the sum the matching encipher round ended
    with, undoes that encipher round. -/
theorem teaRound_inverse (k : Key) (v : Block) (s : Nat)
    (h1 : v.1 < M) (h2 : v.2 < M) :
    (teaDecRound k (teaEncRound k v s).1 (wadd s DELTA)).1 = v := by
  simp only [teaEncRound, teaDecRound]
  rw [wsub_wadd, Nat.mod_eq_of_lt h2, wsub_wadd, Nat.mod_eq_of_lt h1]

/-- One XTEA decipher round of the source undoes one round of the
    spec-intended encipher (the one whose second update targets block[1]). -/
theorem xteaRound_inverse (k : Key) (v : Block) (s : Nat)
    (h1 : v.1 < M) (h2 : v.2 < M) :
    (xteaDecRound k (xteaEncRoundSpec k v s).1 (wadd s DELTA)).1 = v := by
  simp only [xteaEncRoundSpec, xteaDecRound]
  rw [wsub_wadd, Nat.mod_eq_of_lt h2, wsub_wadd, wadd_mod_left, mod_M_mod_four,
    wsub_wadd, Nat.mod_eq_of_lt h1]

theorem teaEncRound_mod (k : Key) (v : Block) (s : Nat) :
    teaEncRound k v (s % M) = teaEncRound k v s := by
  simp only [teaEncRound]
  rw [wadd_mod_left]

theorem xteaEncRoundSpec_mod (k : Key) (v : Block) (s : Nat) :
    xteaEncRoundSpec k v (s % M) = xteaEncRoundSpec k v s := by
  simp only [xteaEncRoundSpec]
  rw [wadd_mod_left, mod_M_mod_four, wadd_mod_left]

/-- Peeling the last round off a sum-accumulating round loop: after m rounds
    the running sum is sum + DELTA * m modulo 2^32. -/
theorem runRounds_last (f : Block → Nat → Block × Nat)
    (hsum : ∀ v s, (f v s).2 = wadd s DELTA)
    (hmod : ∀ v s, f v (s % M) = f v s) (m : Nat) :
    ∀ (v : Block) (s : Nat),
      runRounds f (m + 1) v s = (f (runRounds f m v s) (wadd s (DELTA * m))).1 := by
  induction m with
  | zero =>
    intro v s
    simp only [runRounds_succ, runRounds_zero]
    rw [Nat.mul_zero, wadd_zero_right, hmod]
  | succ m ih =>
    intro v s
    rw [runRounds_succ, ih ((f v s).1) ((f v s).2), ← runRounds_succ, hsum v s,
      wadd_wadd, show DELTA + DELTA * m = DELTA * (m + 1) by ring]

/-- A round loop whose body keeps both words below 2^32 preserves that
    bound. -/
theorem runRounds_wf (f : Block → Nat → Block × Nat)
    (hf : ∀ (v : Block) (s : Nat), v.1 < M → v.2 < M →
      (f v s).1.1 < M ∧ (f v s).1.2 < M) (n : Nat) :
    ∀ (v : Block) (s : Nat), v.1 < M → v.2 < M →
      (runRounds f n v s).1 < M ∧ (runRounds f n v s).2 < M := by
  induction n with
  | zero => intro v s h1 h2; rw [runRounds_zero]; exact ⟨h1, h2⟩
  | succ m ih =>
    intro v s h1 h2
    rw [runRounds_succ]
    exact ih _ _ (hf v s h1 h2).1 (hf v s h1 h2).2

/-- Generic round-trip: if single rounds invert each other at matching sums,
    a decipher loop started at sum + DELTA * n undoes the encipher loop
    started at sum. -/
theorem runRounds_inverse (e d : Block → Nat → Block × Nat)
    (hesum : ∀ v s, (e v s).2 = wadd s DELTA)
    (hemod : ∀ v s, e v (s % M) = e v s)
    (hdsum : ∀ v s, (d v s).2 = wsub s DELTA)
    (hewf : ∀ (v : Block) (s : Nat), v.1 < M → v.2 < M →
      (e v s).1.1 < M ∧ (e v s).1.2 < M)
    (hinv : ∀ (v : Block) (s : Nat), v.1 < M → v.2 < M →
      (d (e v s).1 (wadd s DELTA)).1 = v) (n : Nat) :
    ∀ (v : Block) (s : Nat), v.1 < M → v.2 < M →
      runRounds d n (runRounds e n v s) (wadd s (DELTA * n)) = v := by
  induction n with
  | zero => intro v s h1 h2; rfl
  | succ m ih =>
    intro v s h1 h2
    rw [runRounds_last e hesum hemod m v s, runRounds_succ d, hdsum,
      wsub_wadd_delta_succ]
    have hU := runRounds_wf e hewf m v s h1 h2
    have hrec : (d (e (runRounds e m v s) (wadd s (DELTA * m))).1
        (wadd s (DELTA * (m + 1)))).1 = runRounds e m v s := by
      rw [← wadd_delta_step s m]
      exact hinv _ _ hU.1 hU.2
    rw [hrec]
    exact ih v s h1 h2

/-- The TEA variant round-trips: DecipherBlock inverts EncipherBlock for all
    keys, round counts, and 32-bit blocks. -/
theorem tea_roundtrip (k : Key) (n : Nat) (v : Block)
    (h1 : v.1 < M) (h2 : v.2 < M) :
    DecipherBlockTEA k n (EncipherBlockTEA k n v) = v := by
  have h := runRounds_inverse (teaEncRound k) (teaDecRound k)
    (fun b t => rfl) (teaEncRound_mod k) (fun b t => rfl)
    (fun b t hb1 hb2 => ⟨wadd_lt _ _, wadd_lt _ _⟩)
    (fun b t hb1 hb2 => teaRound_inverse k b t hb1 hb2) n v 0 h1 h2
  rw [wadd_zero_left] at h
  exact h

/-- The source's XTEA DecipherBlock inverts the spec-intended encipher
    (second update targeting block[1]) — evidence that the deviation of the
    source's EncipherBlock is a slip, not a design choice. -/
theorem xtea_spec_roundtrip (k : Key) (n : Nat) (v : Block)
    (h1 : v.1 < M) (h2 : v.2 < M) :
    DecipherBlock k n (EncipherBlockSpec k n v) = v := by
  have h := runRounds_inverse (xteaEncRoundSpec k) (xteaDecRound k)
    (fun b t => rfl) (xteaEncRoundSpec_mod k) (fun b t => rfl)
    (fun b t hb1 hb2 => ⟨wadd_lt _ _, wadd_lt _ _⟩)
    (fun b t hb1 hb2 => xteaRound_inverse k b t hb1 hb2) n v 0 h1 h2
  rw [wadd_zero_left] at h
  exact h

/-- The threaded TEA encipher loop equals the closed-form schedule: round i
    mixes with sum DELTA * (i + 1) mod 2^32. -/
theorem runRounds_teaEnc_spec (k : Key) (n : Nat) :
    ∀ (v : Block), runRounds (teaEncRound k) n v 0 = teaEncSpec k n v := by
  induction n with
  | zero => intro v; rfl
  | succ m ih =>
    intro v
    rw [runRounds_last (teaEncRound k) (fun b t => rfl) (teaEncRound_mod k) m v 0,
      ih v, teaEncRound_fst]
    unfold teaEncSpec
    rw [List.range_succ, List.foldl_append, List.foldl_cons, List.foldl_nil,
      wadd_delta_step, wadd_zero_left]

/-- The threaded TEA decipher loop equals the closed-form schedule: round i
    mixes with sum DELTA * (n - i) mod 2^32. -/
theorem runRounds_teaDec_spec (k : Key) (n : Nat) :
    ∀ (v : Block), runRounds (teaDecRound k) n v (DELTA * n % M) = teaDecSpec k n v := by
  induction n with
  | zero => intro v; rfl
  | succ m ih =>
    intro v
    rw [runRounds_succ, teaDecRound_snd, wsub_delta_mul_succ, ih, teaDecRound_fst]
    unfold teaDecSpec
    rw [List.range_succ_eq_map, List.foldl_cons, List.foldl_map]
    simp only [Nat.succ_sub_succ, Nat.sub_zero]

end RoundTripMachinery

/-- C5 counterexample: the TEA EncipherBlock does not compute block[1] from
    the pre-round value of block[0]: at key (0,0,0,0), one round, block
    (1,0), the source differs from the round the claim words (which reads
    the stale block[0]). -/
theorem tea_stale_update_refuted :
    EncipherBlockTEA zeroKey 1 (1, 0) ≠ EncipherBlockTEAStale zeroKey 1 (1, 0) := by
  decide

/-- C5 (amended): in the TEA variant, sum accumulates DELTA exactly once per
    round; block[0] is updated from block[1] mixed with key[0], key[1] and
    the current sum; block[1] is updated from the just-updated block[0]
    mixed with key[2], key[3] and the current sum; DecipherBlock starts sum
    at rounds * DELTA, applies the two updates in reverse order, and
    decrements sum after each round — so round i of encipher mixes at sum
    DELTA * (i+1) and round i of decipher at DELTA * (n-i), both mod 2^32. -/
theorem tea_round_structure (k : Key) (n : Nat) (v : Block) :
    EncipherBlockTEA k n v = teaEncSpec k n v ∧
    DecipherBlockTEA k n v = teaDecSpec k n v :=
  ⟨runRounds_teaEnc_spec k n v, runRounds_teaDec_spec k n v⟩

section WindowLemmas

theorem readWord_congr (d1 d2 : Nat → Nat) (q : Nat)
    (h : ∀ x, q ≤ x → x < q + 4 → d1 x = d2 x) :
    readWord d1 q = readWord d2 q := by
  unfold readWord
  rw [h q (by omega) (by omega), h (q+1) (by omega) (by omega),
    h (q+2) (by omega) (by omega), h (q+3) (by omega) (by omega)]

/-- A block application depends only on the bytes of its window. -/
theorem applyBlockAt_congr (f : Block → Block) (d1 d2 : Nat → Nat) (off : Nat)
    (h : ∀ x, off ≤ x → x < off + 8 → d1 x = d2 x) (p : Nat)
    (hp1 : off ≤ p) (hp2 : p < off + 8) :
    applyBlockAt f d1 off p = applyBlockAt f d2 off p := by
  have hr1 : readWord d1 off = readWord d2 off :=
    readWord_congr d1 d2 off (fun x hx1 hx2 => h x hx1 (by omega))
  have hr2 : readWord d1 (off + 4) = readWord d2 (off + 4) :=
    readWord_congr d1 d2 (off + 4) (fun x hx1 hx2 => h x (by omega) (by omega))
  unfold applyBlockAt writeWord
  rw [hr1, hr2, h p hp1 hp2]

/-- Inside window i, the loop's result is that of processing window i alone
    on the original buffer: blocks are independent. -/
theorem cipherLoop_window (f : Block → Block) (n : Nat) :
    ∀ (d : Nat → Nat) (i p : Nat), i < n → 8 * i ≤ p → p < 8 * i + 8 →
      cipherLoop f n d p = applyBlockAt f d (8 * i) p := by
  induction n with
  | zero => intro d i p hi hp1 hp2; omega
  | succ m ih =>
    intro d i p hi hp1 hp2
    rw [cipherLoop_succ]
    by_cases hc : i = m
    · subst hc
      exact applyBlockAt_congr f _ d (8 * i)
        (fun x hx1 hx2 => cipherLoop_frame f i d x (by omega)) p hp1 hp2
    · rw [applyBlockAt_frame _ _ _ _ (by omega), ih d i p (by omega) hp1 hp2]

/-- Byte j of the first written word of a processed window. -/
theorem applyBlockAt_lo (f : Block → Block) (d : Nat → Nat) (off j : Nat)
    (hj : j < 4) :
    applyBlockAt f d off (off + j) =
      (f (readWord d off, readWord d (off + 4))).1 / 256 ^ j % 256 := by
  unfold applyBlockAt writeWord
  rw [if_neg (by omega), if_pos (show off ≤ off + j ∧ off + j < off + 4 by omega),
    Nat.add_sub_cancel_left]

/-- Byte j of the second written word of a processed window. -/
theorem applyBlockAt_hi (f : Block → Block) (d : Nat → Nat) (off j : Nat)
    (hj : j < 4) :
    applyBlockAt f d off (off + 4 + j) =
      (f (readWord d off, readWord d (off + 4))).2 / 256 ^ j % 256 := by
  unfold applyBlockAt writeWord
  rw [if_pos (show off + 4 ≤ off + 4 + j ∧ off + 4 + j < off + 4 + 4 by omega),
    Nat.add_sub_cancel_left]

end WindowLemmas

/-- C4: Encrypt and Decrypt process exactly ceil(size/8) blocks (the source's
    size/8 plus one when 8 does not divide size); for every block index i
    below that count — including a final partial block — the full 8-byte
    window at offset 8*i is read and overwritten with the enciphered or
    deciphered pair of words of the original window, and every byte at or
    past 8 * ceil(size/8) is untouched. -/
theorem encrypt_decrypt_blockwise (k : Key) (r : Nat) (d : Nat → Nat) (size : Nat) :
    nBlocks size = (size + 7) / 8 ∧
    (∀ i j, i < nBlocks size → j < 4 →
      (Encrypt d size k r (8 * i + j)
        = (EncipherBlock k r (readWord d (8 * i), readWord d (8 * i + 4))).1 / 256 ^ j % 256 ∧
       Encrypt d size k r (8 * i + 4 + j)
        = (EncipherBlock k r (readWord d (8 * i), readWord d (8 * i + 4))).2 / 256 ^ j % 256 ∧
       Decrypt d size k r (8 * i + j)
        = (DecipherBlock k r (readWord d (8 * i), readWord d (8 * i + 4))).1 / 256 ^ j % 256 ∧
       Decrypt d size k r (8 * i + 4 + j)
        = (DecipherBlock k r (readWord d (8 * i), readWord d (8 * i + 4))).2 / 256 ^ j % 256)) ∧
    (∀ p, 8 * nBlocks size ≤ p → Encrypt d size k r p = d p ∧ Decrypt d size k r p = d p) := by
  refine ⟨by unfold nBlocks; split <;> omega, ?_, ?_⟩
  · intro i j hi hj
    refine ⟨?_, ?_, ?_, ?_⟩
    · show cipherLoop (fun v => EncipherBlock k r v) (nBlocks size) d (8 * i + j) = _
      rw [cipherLoop_window _ _ d i _ hi (by omega) (by omega), applyBlockAt_lo _ _ _ _ hj]
    · show cipherLoop (fun v => EncipherBlock k r v) (nBlocks size) d (8 * i + 4 + j) = _
      rw [cipherLoop_window _ _ d i _ hi (by omega) (by omega), applyBlockAt_hi _ _ _ _ hj]
    · show cipherLoop (fun v => DecipherBlock k r v) (nBlocks size) d (8 * i + j) = _
      rw [cipherLoop_window _ _ d i _ hi (by omega) (by omega), applyBlockAt_lo _ _ _ _ hj]
    · show cipherLoop (fun v => DecipherBlock k r v) (nBlocks size) d (8 * i + 4 + j) = _
      rw [cipherLoop_window _ _ d i _ hi (by omega) (by omega), applyBlockAt_hi _ _ _ _ hj]
  · intro p hp
    exact ⟨cipherLoop_frame _ _ d p hp, cipherLoop_frame _ _ d p hp⟩

/-- C4 witness: a 12-byte buffer (not a multiple of 8) is processed as 2
    blocks; byte 8 of the output is byte 0 of the enciphered second window. -/
theorem encrypt_decrypt_blockwise_witness :
    Encrypt (fun p => p + 1) 12 ⟨1, 2, 3, 4⟩ 1 (8 * 1 + 0)
      = (EncipherBlock ⟨1, 2, 3, 4⟩ 1
          (readWord (fun p => p + 1) (8 * 1), readWord (fun p => p + 1) (8 * 1 + 4))).1
        / 256 ^ 0 % 256 :=
  ((encrypt_decrypt_blockwise ⟨1, 2, 3, 4⟩ 1 (fun p => p + 1) 12).2.1 1 0
    (by decide) (by decide)).1

/-- C6: two-run noninterference across block boundaries: for an aligned
    buffer of n blocks, if two plaintext buffers agree on window j, the
    ciphertexts agree on window j, whatever the other blocks hold. -/
theorem encrypt_block_noninterference (k : Key) (r n j : Nat) (d1 d2 : Nat → Nat)
    (hj : j < n) (hag : ∀ q, 8 * j ≤ q → q < 8 * j + 8 → d1 q = d2 q)
    (p : Nat) (hp1 : 8 * j ≤ p) (hp2 : p < 8 * j + 8) :
    Encrypt d1 (8 * n) k r p = Encrypt d2 (8 * n) k r p := by
  have hn : nBlocks (8 * n) = n := by unfold nBlocks; split <;> omega
  show cipherLoop (fun v => EncipherBlock k r v) (nBlocks (8 * n)) d1 p
    = cipherLoop (fun v => EncipherBlock k r v) (nBlocks (8 * n)) d2 p
  rw [hn, cipherLoop_window _ _ d1 j p hj hp1 hp2,
    cipherLoop_window _ _ d2 j p hj hp1 hp2]
  exact applyBlockAt_congr _ d1 d2 _ hag p hp1 hp2

/-- C6 witness: two 16-byte buffers that agree on block 0 but differ on
    block 1 encrypt to the same byte 3. -/
theorem encrypt_block_noninterference_witness :
    Encrypt (fun p => p % 256) 16 zeroKey 1 3
      = Encrypt (fun p => if p < 8 then p % 256 else 0) 16 zeroKey 1 3 :=
  encrypt_block_noninterference zeroKey 1 2 0 (fun p => p % 256)
    (fun p => if p < 8 then p % 256 else 0) (by decide)
    (fun q h1 h2 => by
      show q % 256 = if q < 8 then q % 256 else 0
      rw [if_pos (show q < 8 by omega)])
    3 (by decide) (by decide)

/-- C7: the XTEA EncipherBlock and DecipherBlock are total over 32-bit word
    inputs: every round operation is wrapping arithmetic modulo 2^32, so for
    every key, round count, and block of words below 2^32 they produce a
    defined result of words below 2^32. -/
theorem cipher_block_total (k : Key) (n : Nat) (v : Block)
    (h1 : v.1 < 2 ^ 32) (h2 : v.2 < 2 ^ 32) :
    (EncipherBlock k n v).1 < 2 ^ 32 ∧ (EncipherBlock k n v).2 < 2 ^ 32 ∧
    (DecipherBlock k n v).1 < 2 ^ 32 ∧ (DecipherBlock k n v).2 < 2 ^ 32 := by
  rw [← M_eq_pow] at h1 h2 ⊢
  have he := runRounds_wf (xteaEncRound k)
    (fun b t hb1 hb2 => ⟨wadd_lt _ _, hb2⟩) n v 0 h1 h2
  have hd := runRounds_wf (xteaDecRound k)
    (fun b t hb1 hb2 => ⟨wsub_lt _ _, wsub_lt _ _⟩) n v (DELTA * n % M) h1 h2
  exact ⟨he.1, he.2, hd.1, hd.2⟩

/-- C7 witness at block (5, 7) with two rounds and the zero key. -/
theorem cipher_block_total_witness :
    (EncipherBlock zeroKey 2 (5, 7)).1 < 2 ^ 32 ∧
    (EncipherBlock zeroKey 2 (5, 7)).2 < 2 ^ 32 ∧
    (DecipherBlock zeroKey 2 (5, 7)).1 < 2 ^ 32 ∧
    (DecipherBlock zeroKey 2 (5, 7)).2 < 2 ^ 32 :=
  cipher_block_total zeroKey 2 (5, 7) (by decide) (by decide)

section MemLemmas

theorem cipherLoopMem_zero (enc : Key → Block → Block) (kOff : Nat) (mem : Nat → Nat) :
    cipherLoopMem enc kOff 0 mem = mem := rfl

theorem cipherLoopMem_succ (enc : Key → Block → Block) (kOff n : Nat) (mem : Nat → Nat) :
    cipherLoopMem enc kOff (n + 1) mem
      = applyBlockAt (enc (keyFromMem (cipherLoopMem enc kOff n mem) kOff))
          (cipherLoopMem enc kOff n mem) (8 * n) := rfl

/-- The memory-level loop writes only into the data region below 8*n. -/
theorem cipherLoopMem_frame (enc : Key → Block → Block) (kOff n : Nat) :
    ∀ (mem : Nat → Nat) (p : Nat), 8 * n ≤ p → cipherLoopMem enc kOff n mem p = mem p := by
  induction n with
  | zero => intro mem p hp; rfl
  | succ m ih =>
    intro mem p hp
    rw [cipherLoopMem_succ, applyBlockAt_frame _ _ _ _ (by omega), ih mem p (by omega)]

end MemLemmas

/-- C9: the key is never modified: when the 16 key bytes lie outside the
    processed data region, the four key words read back after Encrypt or
    Decrypt (each block call re-reading them, as the source does) equal the
    key words before the call. -/
theorem key_unmodified_by_cipher (mem : Nat → Nat) (size kOff r : Nat)
    (hk : 8 * nBlocks size ≤ kOff) :
    keyFromMem (EncryptMem mem size kOff r) kOff = keyFromMem mem kOff ∧
    keyFromMem (DecryptMem mem size kOff r) kOff = keyFromMem mem kOff := by
  constructor
  · unfold EncryptMem keyFromMem
    rw [readWord_congr _ mem kOff
        (fun x h1 h2 => cipherLoopMem_frame _ _ _ mem x (by omega)),
      readWord_congr _ mem (kOff + 4)
        (fun x h1 h2 => cipherLoopMem_frame _ _ _ mem x (by omega)),
      readWord_congr _ mem (kOff + 8)
        (fun x h1 h2 => cipherLoopMem_frame _ _ _ mem x (by omega)),
      readWord_congr _ mem (kOff + 12)
        (fun x h1 h2 => cipherLoopMem_frame _ _ _ mem x (by omega))]
  · unfold DecryptMem keyFromMem
    rw [readWord_congr _ mem kOff
        (fun x h1 h2 => cipherLoopMem_frame _ _ _ mem x (by omega)),
      readWord_congr _ mem (kOff + 4)
        (fun x h1 h2 => cipherLoopMem_frame _ _ _ mem x (by omega)),
      readWord_congr _ mem (kOff + 8)
        (fun x h1 h2 => cipherLoopMem_frame _ _ _ mem x (by omega)),
      readWord_congr _ mem (kOff + 12)
        (fun x h1 h2 => cipherLoopMem_frame _ _ _ mem x (by omega))]

/-- C9 witness: one 8-byte block at offset 0, key bytes at offset 8. -/
theorem key_unmodified_by_cipher_witness :
    keyFromMem (EncryptMem (fun p => (p + 1) % 256) 8 8 1) 8
      = keyFromMem (fun p => (p + 1) % 256) 8 :=
  (key_unmodified_by_cipher (fun p => (p + 1) % 256) 8 8 1 (by decide)).1

section IdentityLemmas

/-- Byte j of a little-endian word readback is the original byte, when the
    four bytes are genuine bytes. -/
theorem readWord_byte (d : Nat → Nat) (q j : Nat) (hj : j < 4)
    (h0 : d q < 256) (h1 : d (q + 1) < 256) (h2 : d (q + 2) < 256)
    (h3 : d (q + 3) < 256) :
    readWord d q / 256 ^ j % 256 = d (q + j) := by
  unfold readWord
  interval_cases j <;> norm_num <;> omega

/-- Processing a window with an identity block transform writes back the
    original bytes. -/
theorem applyBlockAt_id (f : Block → Block) (hf : ∀ b, f b = b) (d : Nat → Nat)
    (off : Nat) (hd : ∀ x, off ≤ x → x < off + 8 → d x < 256) (p : Nat) :
    applyBlockAt f d off p = d p := by
  by_cases hp : off ≤ p ∧ p < off + 8
  · by_cases hlo : p < off + 4
    · obtain ⟨j, hj, rfl⟩ : ∃ j, j < 4 ∧ p = off + j := ⟨p - off, by omega, by omega⟩
      rw [applyBlockAt_lo f d off j hj, hf]
      exact readWord_byte d off j hj (hd _ (by omega) (by omega))
        (hd _ (by omega) (by omega)) (hd _ (by omega) (by omega))
        (hd _ (by omega) (by omega))
    · obtain ⟨j, hj, rfl⟩ : ∃ j, j < 4 ∧ p = off + 4 + j :=
        ⟨p - (off + 4), by omega, by omega⟩
      rw [applyBlockAt_hi f d off j hj, hf]
      exact readWord_byte d (off + 4) j hj (hd _ (by omega) (by omega))
        (hd _ (by omega) (by omega)) (hd _ (by omega) (by omega))
        (hd _ (by omega) (by omega))
  · exact applyBlockAt_frame f d off p (by omega)

/-- The block loop with an identity block transform leaves a byte buffer
    unchanged. -/
theorem cipherLoop_id (f : Block → Block) (hf : ∀ b, f b = b) (n : Nat) :
    ∀ (d : Nat → Nat), (∀ x, d x < 256) → ∀ p, cipherLoop f n d p = d p := by
  induction n with
  | zero => intro d hd p; rfl
  | succ m ih =>
    intro d hd p
    rw [cipherLoop_succ, funext (ih d hd)]
    exact applyBlockAt_id f hf d (8 * m) (fun x hx1 hx2 => hd x) p

end IdentityLemmas

/-- C10: with a round count of 0 the loop body never executes: both variants
    of EncipherBlock and DecipherBlock are the identity on the block, and
    Encrypt and Decrypt with n_rounds = 0 leave every byte of a byte buffer
    unchanged. -/
theorem zero_rounds_identity (k : Key) (v : Block) (d : Nat → Nat) (size : Nat)
    (hd : ∀ x, d x < 256) :
    EncipherBlock k 0 v = v ∧ DecipherBlock k 0 v = v ∧
    EncipherBlockTEA k 0 v = v ∧ DecipherBlockTEA k 0 v = v ∧
    (∀ p, Encrypt d size k 0 p = d p) ∧ (∀ p, Decrypt d size k 0 p = d p) := by
  refine ⟨rfl, rfl, rfl, rfl, ?_, ?_⟩
  · exact cipherLoop_id (fun b => EncipherBlock k 0 b) (fun b => rfl) (nBlocks size) d hd
  · exact cipherLoop_id (fun b => DecipherBlock k 0 b) (fun b => rfl) (nBlocks size) d hd

/-- C10 witness: byte 5 of a 16-byte buffer survives Encrypt with 0 rounds. -/
theorem zero_rounds_identity_witness :
    Encrypt (fun p => p % 256) 16 zeroKey 0 5 = 5 :=
  (zero_rounds_identity zeroKey (0, 0) (fun p => p % 256) 16
    (fun x => Nat.mod_lt x (by omega))).2.2.2.2.1 5

end XTea
